import Mathlib

/-!
Verification of the frame-placement core of the Instancing++ Blender addon
(`src/instancing.py`).

The addon's addressable logic is:
  * `change_of_basis_matrix(at, i, j, k)` — builds a 4x4 placement transform
    from a position and three basis vectors (mathutils `Matrix`, `Vector`);
  * `edge_normal(edge)` — averages the two adjacent face normals of an edge,
    returning `None` when the edge does not join exactly 2 faces;
  * `InstancingPlusPlus.execute` — iterates the mesh's vertices, edges and
    faces (as enabled by the `which` selection mask), producing one placement
    matrix per processed element and counting skipped edges.

We embed the geometry over ℝ.  mathutils `Vector.normalized()` guards
zero-length vectors (returning the zero vector instead of dividing by zero);
`Vector.orthogonal()` picks a perpendicular vector by the dominant-axis rule.
Both are embedded faithfully below.
-/

/-- A 3-d vector, embedding mathutils `Vector` of length 3 over ℝ. -/
structure Vec3 where
  x : ℝ
  y : ℝ
  z : ℝ

namespace Vec3

instance : Zero Vec3 := ⟨⟨0, 0, 0⟩⟩

instance : Add Vec3 := ⟨fun a b => ⟨a.x + b.x, a.y + b.y, a.z + b.z⟩⟩

instance : Sub Vec3 := ⟨fun a b => ⟨a.x - b.x, a.y - b.y, a.z - b.z⟩⟩

instance : SMul ℝ Vec3 := ⟨fun c v => ⟨c * v.x, c * v.y, c * v.z⟩⟩

theorem zero_def : (0 : Vec3) = ⟨0, 0, 0⟩ := rfl

theorem add_def (a b : Vec3) : a + b = ⟨a.x + b.x, a.y + b.y, a.z + b.z⟩ := rfl

theorem sub_def (a b : Vec3) : a - b = ⟨a.x - b.x, a.y - b.y, a.z - b.z⟩ := rfl

theorem smul_def (c : ℝ) (v : Vec3) : c • v = ⟨c * v.x, c * v.y, c * v.z⟩ := rfl

theorem ext_iff {a b : Vec3} : a = b ↔ a.x = b.x ∧ a.y = b.y ∧ a.z = b.z := by
  constructor
  · rintro rfl; exact ⟨rfl, rfl, rfl⟩
  · rcases a with ⟨ax, ay, az⟩
    rcases b with ⟨bx, by_, bz⟩
    rintro ⟨h1, h2, h3⟩
    simp_all

/-- Dot product. -/
def dot (a b : Vec3) : ℝ := a.x * b.x + a.y * b.y + a.z * b.z

/-- Cross product (mathutils `Vector.cross`). -/
def cross (a b : Vec3) : Vec3 :=
  ⟨a.y * b.z - a.z * b.y, a.z * b.x - a.x * b.z, a.x * b.y - a.y * b.x⟩

/-- Euclidean length (mathutils `Vector.length`). -/
noncomputable def norm (v : Vec3) : ℝ := Real.sqrt (dot v v)

/-- mathutils `Vector.normalized()`: Blender's `normalize_v3` divides by the
length only when the squared length is positive (the C code guards with
`d > 1.0e-35f`), and otherwise returns the zero vector.  Idealized over ℝ the
guard is `0 < dot v v`. -/
noncomputable def normalized (v : Vec3) : Vec3 :=
  if 0 < dot v v then (1 / Real.sqrt (dot v v)) • v else 0

/-- mathutils `Vector.orthogonal()` for 3-d vectors: Blender's `ortho_v3_v3`,
which branches on the dominant axis (`axis_dominant_v3_single`, strict
comparisons of absolute components) and swizzles components accordingly. -/
noncomputable def orthogonal (v : Vec3) : Vec3 :=
  if |v.x| > |v.y| then
    if |v.x| > |v.z| then ⟨-v.y - v.z, v.x, v.x⟩
    else ⟨v.z, v.z, -v.x - v.y⟩
  else
    if |v.y| > |v.z| then ⟨v.y, -v.x - v.z, v.y⟩
    else ⟨v.z, v.z, -v.x - v.y⟩

theorem dot_self_nonneg (v : Vec3) : 0 ≤ dot v v := by
  unfold dot; nlinarith [sq_nonneg v.x, sq_nonneg v.y, sq_nonneg v.z]

theorem dot_self_eq_zero_iff {v : Vec3} : dot v v = 0 ↔ v = 0 := by
  constructor
  · intro h
    unfold dot at h
    have hx : v.x = 0 := by nlinarith [sq_nonneg v.x, sq_nonneg v.y, sq_nonneg v.z]
    have hy : v.y = 0 := by nlinarith [sq_nonneg v.x, sq_nonneg v.y, sq_nonneg v.z]
    have hz : v.z = 0 := by nlinarith [sq_nonneg v.x, sq_nonneg v.y, sq_nonneg v.z]
    rw [ext_iff]; exact ⟨hx, hy, hz⟩
  · rintro rfl; simp [dot, zero_def]

theorem dot_self_pos {v : Vec3} (h : v ≠ 0) : 0 < dot v v := by
  rcases lt_or_eq_of_le (dot_self_nonneg v) with h' | h'
  · exact h'
  · exact absurd (dot_self_eq_zero_iff.mp h'.symm) h

theorem dot_smul_left (c : ℝ) (a b : Vec3) : dot (c • a) b = c * dot a b := by
  simp only [smul_def, dot]; ring

theorem dot_smul_right (c : ℝ) (a b : Vec3) : dot a (c • b) = c * dot a b := by
  simp only [smul_def, dot]; ring

theorem dot_comm (a b : Vec3) : dot a b = dot b a := by
  unfold dot; ring

/-- Lagrange identity specialised to the squared length of a cross product. -/
theorem dot_cross_self (a b : Vec3) :
    dot (cross a b) (cross a b) = dot a a * dot b b - (dot a b) ^ 2 := by
  simp only [cross, dot]; ring

theorem dot_cross_left (a b : Vec3) : dot (cross a b) a = 0 := by
  simp only [cross, dot]; ring

theorem dot_cross_right (a b : Vec3) : dot (cross a b) b = 0 := by
  simp only [cross, dot]; ring

theorem cross_ne_zero_of_orthogonal {a b : Vec3} (ha : a ≠ 0) (hb : b ≠ 0)
    (hab : dot a b = 0) : cross a b ≠ 0 := by
  intro h
  have h2 : dot (cross a b) (cross a b) = 0 := by rw [h]; simp [dot, zero_def]
  rw [dot_cross_self, hab] at h2
  have := mul_pos (dot_self_pos ha) (dot_self_pos hb)
  nlinarith

/-- `normalized` returns a nonnegative multiple of its argument. -/
theorem normalized_eq_smul (v : Vec3) :
    ∃ c : ℝ, 0 ≤ c ∧ normalized v = c • v := by
  unfold normalized
  by_cases h : 0 < dot v v
  · refine ⟨1 / Real.sqrt (dot v v), ?_, by rw [if_pos h]⟩
    positivity
  · refine ⟨0, le_refl 0, ?_⟩
    rw [if_neg h, ext_iff]
    simp [smul_def, zero_def]

theorem normalized_of_ne_zero {v : Vec3} (h : v ≠ 0) :
    normalized v = (1 / Real.sqrt (dot v v)) • v := by
  unfold normalized
  rw [if_pos (dot_self_pos h)]

/-- A positive multiple of `v` paired with `normalized v` when `v ≠ 0`. -/
theorem normalized_eq_pos_smul {v : Vec3} (h : v ≠ 0) :
    ∃ c : ℝ, 0 < c ∧ normalized v = c • v := by
  refine ⟨1 / Real.sqrt (dot v v), ?_, normalized_of_ne_zero h⟩
  have := Real.sqrt_pos.mpr (dot_self_pos h)
  positivity

theorem dot_normalized_self {v : Vec3} (h : v ≠ 0) :
    dot (normalized v) (normalized v) = 1 := by
  rw [normalized_of_ne_zero h, dot_smul_left, dot_smul_right]
  have hd := dot_self_pos h
  have hs := Real.sq_sqrt (le_of_lt hd)
  have hs0 : Real.sqrt (dot v v) ≠ 0 := ne_of_gt (Real.sqrt_pos.mpr hd)
  field_simp

theorem norm_normalized {v : Vec3} (h : v ≠ 0) : norm (normalized v) = 1 := by
  rw [norm, dot_normalized_self h, Real.sqrt_one]

theorem dot_normalized_eq_zero {a b : Vec3} (h : dot a b = 0) :
    dot (normalized a) (normalized b) = 0 := by
  obtain ⟨c, _, hc⟩ := normalized_eq_smul a
  obtain ⟨d, _, hd⟩ := normalized_eq_smul b
  rw [hc, hd, dot_smul_left, dot_smul_right, h]
  ring

/-- Normalization is invariant under positive rescaling. -/
theorem normalized_pos_smul {c : ℝ} (hc : 0 < c) (v : Vec3) :
    normalized (c • v) = normalized v := by
  by_cases h : v = 0
  · subst h
    have : c • (0 : Vec3) = 0 := by simp [smul_def, zero_def]
    rw [this]
  · have hv := dot_self_pos h
    have hcv : (0 : ℝ) < dot (c • v) (c • v) := by
      rw [dot_smul_left, dot_smul_right]; positivity
    unfold normalized
    rw [if_pos hcv, if_pos hv]
    have hsq : dot (c • v) (c • v) = c ^ 2 * dot v v := by
      rw [dot_smul_left, dot_smul_right]; ring
    have hsqrt : Real.sqrt (dot (c • v) (c • v)) = c * Real.sqrt (dot v v) := by
      rw [hsq]
      rw [show c ^ 2 * dot v v = (c * Real.sqrt (dot v v)) ^ 2 by
        rw [mul_pow, Real.sq_sqrt (le_of_lt hv)]]
      exact Real.sqrt_sq (by positivity)
    rw [hsqrt]
    have hc0 : c ≠ 0 := ne_of_gt hc
    have hs0 : Real.sqrt (dot v v) ≠ 0 := ne_of_gt (Real.sqrt_pos.mpr hv)
    rw [ext_iff]
    refine ⟨?_, ?_, ?_⟩ <;>
      · simp only [smul_def]
        field_simp
        ring

theorem dot_orthogonal (v : Vec3) : dot v (orthogonal v) = 0 := by
  unfold orthogonal
  by_cases h1 : |v.x| > |v.y| <;> by_cases h2 : |v.x| > |v.z| <;>
    by_cases h3 : |v.y| > |v.z| <;>
    simp only [h1, h2, h3, if_true, if_false, dot] <;> ring

theorem orthogonal_ne_zero {v : Vec3} (h : v ≠ 0) : orthogonal v ≠ 0 := by
  have hx := abs_nonneg v.x
  have hy := abs_nonneg v.y
  have hz := abs_nonneg v.z
  unfold orthogonal
  by_cases h1 : |v.x| > |v.y|
  · by_cases h2 : |v.x| > |v.z|
    · rw [if_pos h1, if_pos h2]
      intro hc
      rw [ext_iff] at hc
      have : v.x = 0 := hc.2.1
      have : |v.x| = 0 := by rw [this]; exact abs_zero
      linarith
    · rw [if_pos h1, if_neg h2]
      intro hc
      rw [ext_iff] at hc
      have hz0 : v.z = 0 := hc.1
      have : |v.z| = 0 := by rw [hz0]; exact abs_zero
      push_neg at h2
      linarith
  · by_cases h3 : |v.y| > |v.z|
    · rw [if_neg h1, if_pos h3]
      intro hc
      rw [ext_iff] at hc
      have hy0 : v.y = 0 := hc.1
      have : |v.y| = 0 := by rw [hy0]; exact abs_zero
      linarith
    · rw [if_neg h1, if_neg h3]
      intro hc
      rw [ext_iff] at hc
      have hz0 : v.z = 0 := hc.1
      have hza : |v.z| = 0 := by rw [hz0]; exact abs_zero
      push_neg at h1 h3
      have hya : |v.y| = 0 := le_antisymm (by linarith) hy
      have hxa : |v.x| = 0 := le_antisymm (by linarith) hx
      apply h
      rw [ext_iff]
      exact ⟨abs_eq_zero.mp hxa, abs_eq_zero.mp hya, abs_eq_zero.mp hza⟩

end Vec3

/-! ## The 4x4 transform layer (mathutils `Matrix`) -/

/-- mathutils `Matrix([r0, r1, r2])`: a 3x3 matrix whose rows are the three
given vectors. -/
noncomputable def matrixOfRows (r0 r1 r2 : Vec3) : Matrix (Fin 3) (Fin 3) ℝ :=
  !![r0.x, r0.y, r0.z; r1.x, r1.y, r1.z; r2.x, r2.y, r2.z]

/-- mathutils `Matrix.to_4x4()`: embed a 3x3 matrix into the upper-left block
of a 4x4 identity matrix. -/
noncomputable def to_4x4 (m : Matrix (Fin 3) (Fin 3) ℝ) : Matrix (Fin 4) (Fin 4) ℝ :=
  !![m 0 0, m 0 1, m 0 2, 0;
     m 1 0, m 1 1, m 1 2, 0;
     m 2 0, m 2 1, m 2 2, 0;
     0, 0, 0, 1]

/-- mathutils `Matrix.Translation(t)`: identity rotation with translation
column `t`. -/
noncomputable def translationMatrix (t : Vec3) : Matrix (Fin 4) (Fin 4) ℝ :=
  !![1, 0, 0, t.x;
     0, 1, 0, t.y;
     0, 0, 1, t.z;
     0, 0, 0, 1]

/-- `change_of_basis_matrix(at, i, j, k)` from `src/instancing.py`:
`rot = Matrix([i.normalized(), j.normalized(), k.normalized()])`, then
`Matrix.Translation(at) @ rot.transposed().to_4x4()`.  (`at` is a Lean
keyword, so the position argument is named `at_`.) -/
noncomputable def change_of_basis_matrix (at_ i j k : Vec3) : Matrix (Fin 4) (Fin 4) ℝ :=
  translationMatrix at_ *
    to_4x4 (matrixOfRows (Vec3.normalized i) (Vec3.normalized j) (Vec3.normalized k)).transpose

/-- The first three entries of column `c` of a 4x4 transform, as a `Vec3`. -/
noncomputable def col3 (m : Matrix (Fin 4) (Fin 4) ℝ) (c : Fin 4) : Vec3 :=
  ⟨m 0 c, m 1 c, m 2 c⟩

/-- Apply a 4x4 transform to a 3-d point (homogeneous coordinate 1), the way
Blender applies `matrix_local` to a location. -/
noncomputable def applyPoint (m : Matrix (Fin 4) (Fin 4) ℝ) (p : Vec3) : Vec3 :=
  ⟨m 0 0 * p.x + m 0 1 * p.y + m 0 2 * p.z + m 0 3,
   m 1 0 * p.x + m 1 1 * p.y + m 1 2 * p.z + m 1 3,
   m 2 0 * p.x + m 2 1 * p.y + m 2 2 * p.z + m 2 3⟩

/-- Closed form of `change_of_basis_matrix`: the rotation columns are exactly
the three independently normalized basis vectors and the last column is the
position. -/
theorem change_of_basis_matrix_eq (at_ i j k : Vec3) :
    change_of_basis_matrix at_ i j k =
      !![(Vec3.normalized i).x, (Vec3.normalized j).x, (Vec3.normalized k).x, at_.x;
         (Vec3.normalized i).y, (Vec3.normalized j).y, (Vec3.normalized k).y, at_.y;
         (Vec3.normalized i).z, (Vec3.normalized j).z, (Vec3.normalized k).z, at_.z;
         0, 0, 0, 1] := by
  unfold change_of_basis_matrix translationMatrix to_4x4 matrixOfRows
  ext a b
  fin_cases a <;> fin_cases b <;>
    simp [Matrix.mul_apply, Fin.sum_univ_four, Matrix.transpose_apply]

/-! ## The bmesh data model

Only the fields the addon reads are modelled: vertex `co` and `normal`; edge
endpoint positions (`e.verts[0].co`, `e.verts[1].co`) and the normals of the
linked faces (`f.normal` for `f` in `e.link_faces`); face loop-vertex
positions, the endpoints of the face's first edge (`f.edges[0].verts[_].co`)
and the face `normal`. -/

/-- A bmesh vertex: position `co` and vertex normal `normal`. -/
structure BVert where
  co : Vec3
  normal : Vec3

/-- A bmesh edge: its two endpoint positions and the list of normals of the
faces linked to it (`[f.normal for f in edge.link_faces]`). -/
structure BEdge where
  v0 : Vec3
  v1 : Vec3
  linkFaceNormals : List Vec3

/-- A bmesh face: the loop vertex positions, the endpoint positions of each
of its edges (in loop order; `f.edges[0]` is the first), and the face
normal. -/
structure BFace where
  verts : List Vec3
  edges : List (Vec3 × Vec3)
  normal : Vec3

/-- A bmesh mesh snapshot. -/
structure BMesh where
  verts : List BVert
  edges : List BEdge
  faces : List BFace

/-- The `which : BoolVectorProperty(size=3)` selection mask. -/
structure Which where
  verts : Bool
  edges : Bool
  faces : Bool

/-- `edge_normal(edge)` from `src/instancing.py`:
`faces = list(edge.link_faces); if len(faces) != 2: return None;
return (faces[0].normal + faces[1].normal) / 2`. -/
noncomputable def edge_normal (e : BEdge) : Option Vec3 :=
  match e.linkFaceNormals with
  | [n0, n1] => some ((1 / 2 : ℝ) • (n0 + n1))
  | _ => none

/-- `calc_center_median()` of a bmesh face: the unweighted mean of the face's
loop vertex coordinates. -/
noncomputable def calc_center_median (f : BFace) : Vec3 :=
  (1 / (f.verts.length : ℝ)) • (f.verts.foldl (· + ·) 0)

/-- The vertex branch of `execute` (lines 80-87): `k = v.normal`,
`i = k.orthogonal()`, `j = k.cross(i)`, matrix at `v.co`. -/
noncomputable def vertexFrame (v : BVert) : Matrix (Fin 4) (Fin 4) ℝ :=
  let k := v.normal
  let i := Vec3.orthogonal k
  let j := Vec3.cross k i
  change_of_basis_matrix v.co i j k

/-- The per-edge computation of `execute` (lines 92-104): `k = edge_normal(e)`
(`none` means the edge is skipped), `i = e.verts[1].co - e.verts[0].co`,
`j = k.cross(i)`, matrix at the midpoint `(e.verts[0].co + e.verts[1].co)/2`. -/
noncomputable def edgeFrame (e : BEdge) : Option (Matrix (Fin 4) (Fin 4) ℝ) :=
  (edge_normal e).map fun k =>
    let i := e.v1 - e.v0
    let j := Vec3.cross k i
    let mid := (1 / 2 : ℝ) • (e.v0 + e.v1)
    change_of_basis_matrix mid i j k

/-- The per-face computation of `execute` (lines 111-118): `edge = f.edges[0]`,
`k = f.normal`, `i = edge.verts[1].co - edge.verts[0].co`, `j = k.cross(i)`,
matrix at `f.calc_center_median()`.  The source indexes `f.edges[0]` directly
(bmesh guarantees every face has at least 3 edges); an edge-less face, on
which the source would raise, is mapped to `none`. -/
noncomputable def faceFrame (f : BFace) : Option (Matrix (Fin 4) (Fin 4) ℝ) :=
  match f.edges with
  | [] => none
  | (a, b) :: _ =>
    let k := f.normal
    let i := b - a
    let j := Vec3.cross k i
    some (change_of_basis_matrix (calc_center_median f) i j k)

/-- One iteration of the edge loop of `execute`, threading the accumulated
`empties` list and the mutable `bad_edges_count`. -/
noncomputable def edgeStep (s : List (Matrix (Fin 4) (Fin 4) ℝ) × ℕ) (e : BEdge) :
    List (Matrix (Fin 4) (Fin 4) ℝ) × ℕ :=
  match edge_normal e with
  | none => (s.1, s.2 + 1)
  | some k =>
    let i := e.v1 - e.v0
    let j := Vec3.cross k i
    let mid := (1 / 2 : ℝ) • (e.v0 + e.v1)
    (s.1 ++ [change_of_basis_matrix mid i j k], s.2)

/-- One iteration of the face loop of `execute`. -/
noncomputable def faceStep (acc : List (Matrix (Fin 4) (Fin 4) ℝ)) (f : BFace) :
    List (Matrix (Fin 4) (Fin 4) ℝ) :=
  match faceFrame f with
  | none => acc
  | some m => acc ++ [m]

/-- `InstancingPlusPlus.execute` (lines 64-128), restricted to its addressable
core: the sequence of `matrix_local` transforms assigned to the created
empties (in creation order: vertices, then edges, then faces, each group only
when enabled by `which`) together with the final `bad_edges_count`. -/
noncomputable def execute (which : Which) (mesh : BMesh) :
    List (Matrix (Fin 4) (Fin 4) ℝ) × ℕ :=
  let empties : List (Matrix (Fin 4) (Fin 4) ℝ) := []
  let empties := if which.verts
    then mesh.verts.foldl (fun acc v => acc ++ [vertexFrame v]) empties
    else empties
  let s := if which.edges
    then mesh.edges.foldl edgeStep (empties, 0)
    else (empties, 0)
  let empties := if which.faces
    then mesh.faces.foldl faceStep s.1
    else s.1
  (empties, s.2)

/-! ## Characterization of the batch loop -/

theorem foldl_vertexFrame (l : List BVert) (init : List (Matrix (Fin 4) (Fin 4) ℝ)) :
    l.foldl (fun acc v => acc ++ [vertexFrame v]) init = init ++ l.map vertexFrame := by
  induction l generalizing init with
  | nil => simp
  | cons v rest ih => simp [List.foldl_cons, ih]

theorem foldl_edgeStep (l : List BEdge) (init : List (Matrix (Fin 4) (Fin 4) ℝ)) (n : ℕ) :
    l.foldl edgeStep (init, n) =
      (init ++ l.filterMap edgeFrame,
        n + l.countP (fun e => (edge_normal e).isNone)) := by
  induction l generalizing init n with
  | nil => simp
  | cons e rest ih =>
    rw [List.foldl_cons]
    rcases he : edge_normal e with _ | k
    · have hstep : edgeStep (init, n) e = (init, n + 1) := by
        simp [edgeStep, he]
      have hframe : edgeFrame e = none := by
        simp [edgeFrame, he]
      rw [hstep, ih]
      simp [List.filterMap_cons, hframe, List.countP_cons, he]
      omega
    · have hstep : edgeStep (init, n) e =
          (init ++ [change_of_basis_matrix ((1 / 2 : ℝ) • (e.v0 + e.v1))
            (e.v1 - e.v0) (Vec3.cross k (e.v1 - e.v0)) k], n) := by
        simp [edgeStep, he]
      have hframe : edgeFrame e =
          some (change_of_basis_matrix ((1 / 2 : ℝ) • (e.v0 + e.v1))
            (e.v1 - e.v0) (Vec3.cross k (e.v1 - e.v0)) k) := by
        simp [edgeFrame, he]
      rw [hstep, ih]
      simp [List.filterMap_cons, hframe, List.countP_cons, he]

theorem foldl_faceStep (l : List BFace) (init : List (Matrix (Fin 4) (Fin 4) ℝ)) :
    l.foldl faceStep init = init ++ l.filterMap faceFrame := by
  induction l generalizing init with
  | nil => simp
  | cons f rest ih =>
    rw [List.foldl_cons]
    rcases hf : faceFrame f with _ | m
    · simp [faceStep, hf, ih, List.filterMap_cons]
    · simp [faceStep, hf, ih, List.filterMap_cons]

/-- Closed form of `execute`: the emitted transforms are the vertex group,
then the edge group, then the face group, each produced by a pure per-element
function, and the skipped count is the number of edges whose `edge_normal` is
`None`. -/
theorem execute_eq (w : Which) (m : BMesh) :
    execute w m =
      ((if w.verts then m.verts.map vertexFrame else []) ++
         (if w.edges then m.edges.filterMap edgeFrame else []) ++
         (if w.faces then m.faces.filterMap faceFrame else []),
        if w.edges then m.edges.countP (fun e => (edge_normal e).isNone) else 0) := by
  unfold execute
  rcases w with ⟨wv, we, wf⟩
  rcases wv <;> rcases we <;> rcases wf <;>
    simp [foldl_vertexFrame, foldl_edgeStep, foldl_faceStep]

/-! ## Helper lemmas -/

theorem one_smul_vec (v : Vec3) : (1 : ℝ) • v = v := by
  rw [Vec3.ext_iff]; simp [Vec3.smul_def]

theorem edge_normal_eq_none_iff (e : BEdge) :
    edge_normal e = none ↔ e.linkFaceNormals.length ≠ 2 := by
  rcases e with ⟨v0, v1, l⟩
  rcases l with _ | ⟨a, _ | ⟨b, _ | ⟨c, t⟩⟩⟩ <;> simp [edge_normal]

theorem col3_change_of_basis (at_ i j k : Vec3) :
    col3 (change_of_basis_matrix at_ i j k) 0 = Vec3.normalized i ∧
    col3 (change_of_basis_matrix at_ i j k) 1 = Vec3.normalized j ∧
    col3 (change_of_basis_matrix at_ i j k) 2 = Vec3.normalized k ∧
    col3 (change_of_basis_matrix at_ i j k) 3 = at_ := by
  refine ⟨?_, ?_, ?_, ?_⟩ <;>
    · rw [col3, change_of_basis_matrix_eq, Vec3.ext_iff]
      simp

theorem applyPoint_change_of_basis_zero (at_ i j k : Vec3) :
    applyPoint (change_of_basis_matrix at_ i j k) 0 = at_ := by
  rw [applyPoint, change_of_basis_matrix_eq, Vec3.ext_iff]
  simp [Vec3.zero_def]

theorem length_filterMap_eq_countP {α β : Type} (f : α → Option β) (l : List α) :
    (l.filterMap f).length = l.countP (fun a => (f a).isSome) := by
  induction l with
  | nil => rfl
  | cons a t ih =>
    rcases hf : f a with _ | b <;>
      simp [List.filterMap_cons, hf, List.countP_cons, ih]

/-! ## The claims -/

/-- C1: for every edge whose number of linked faces is not exactly 2, when
edges are selected `execute` emits no transform for that edge, the returned
skipped-edge count increases by exactly 1 for that edge, and the remaining
elements are still processed (removing the bad edge from the mesh yields the
same transform sequence and a count smaller by exactly 1). -/
theorem C1_edge_skip (w : Which) (hw : w.edges = true)
    (verts : List BVert) (faces : List BFace)
    (l₁ l₂ : List BEdge) (e : BEdge) (he : e.linkFaceNormals.length ≠ 2) :
    (execute w ⟨verts, l₁ ++ e :: l₂, faces⟩).1 =
      (execute w ⟨verts, l₁ ++ l₂, faces⟩).1 ∧
    (execute w ⟨verts, l₁ ++ e :: l₂, faces⟩).2 =
      (execute w ⟨verts, l₁ ++ l₂, faces⟩).2 + 1 := by
  have hnone : edge_normal e = none := (edge_normal_eq_none_iff e).mpr he
  have hframe : edgeFrame e = none := by simp [edgeFrame, hnone]
  constructor
  · rw [execute_eq, execute_eq]
    simp [List.filterMap_append, List.filterMap_cons, hframe]
  · rw [execute_eq, execute_eq]
    simp [hw, List.countP_append, List.countP_cons, hnone]
    omega

/-- Witness for C1 at a concrete input: a single edge linked to no face, with
edges selected. -/
theorem C1_edge_skip_witness :
    (Which.mk false true false).edges = true ∧
    (BEdge.mk ⟨0, 0, 0⟩ ⟨1, 0, 0⟩ []).linkFaceNormals.length ≠ 2 ∧
    ((execute ⟨false, true, false⟩ ⟨[], [] ++ BEdge.mk ⟨0, 0, 0⟩ ⟨1, 0, 0⟩ [] :: [], []⟩).1 =
        (execute ⟨false, true, false⟩ ⟨[], [] ++ [], []⟩).1 ∧
      (execute ⟨false, true, false⟩ ⟨[], [] ++ BEdge.mk ⟨0, 0, 0⟩ ⟨1, 0, 0⟩ [] :: [], []⟩).2 =
        (execute ⟨false, true, false⟩ ⟨[], [] ++ [], []⟩).2 + 1) :=
  ⟨rfl, by decide,
    C1_edge_skip ⟨false, true, false⟩ rfl [] [] [] [] (BEdge.mk ⟨0, 0, 0⟩ ⟨1, 0, 0⟩ []) (by decide)⟩

/-- C2: contrary to the claim, `change_of_basis_matrix` surfaces no
computation error when a basis vector is the zero vector: at the failing
input `i = (0,0,0)` it silently returns a well-defined transform whose first
rotation column is the zero vector (a singular matrix), because mathutils
`normalized()` maps the zero vector to the zero vector. -/
theorem C2_zero_vector_silent :
    change_of_basis_matrix ⟨0, 0, 0⟩ ⟨0, 0, 0⟩ ⟨0, 1, 0⟩ ⟨0, 0, 1⟩ =
      !![0, 0, 0, 0;
         0, 1, 0, 0;
         0, 0, 1, 0;
         0, 0, 0, 1] := by
  have h1 : Vec3.normalized ⟨0, 0, 0⟩ = ⟨0, 0, 0⟩ := by
    simp [Vec3.normalized, Vec3.dot, Vec3.zero_def]
  have h2 : Vec3.normalized ⟨0, 1, 0⟩ = ⟨0, 1, 0⟩ := by
    have hd : Vec3.dot ⟨0, 1, 0⟩ ⟨0, 1, 0⟩ = 1 := by simp [Vec3.dot]
    rw [Vec3.normalized, hd, if_pos one_pos, Real.sqrt_one]
    norm_num [one_smul_vec]
  have h3 : Vec3.normalized ⟨0, 0, 1⟩ = ⟨0, 0, 1⟩ := by
    have hd : Vec3.dot ⟨0, 0, 1⟩ ⟨0, 0, 1⟩ = 1 := by simp [Vec3.dot]
    rw [Vec3.normalized, hd, if_pos one_pos, Real.sqrt_one]
    norm_num [one_smul_vec]
  rw [change_of_basis_matrix_eq, h1, h2, h3]

/-- C3: for every vertex with a nonzero normal, the rotation columns of the
vertex's placement transform are pairwise orthogonal unit vectors, the third
column is a positive multiple of the normal (unit length, same direction),
and the translation column is the vertex position. -/
theorem C3_vertex_frame (v : BVert) (h : v.normal ≠ 0) :
    (Vec3.dot (col3 (vertexFrame v) 0) (col3 (vertexFrame v) 1) = 0 ∧
     Vec3.dot (col3 (vertexFrame v) 0) (col3 (vertexFrame v) 2) = 0 ∧
     Vec3.dot (col3 (vertexFrame v) 1) (col3 (vertexFrame v) 2) = 0) ∧
    (Vec3.norm (col3 (vertexFrame v) 0) = 1 ∧
     Vec3.norm (col3 (vertexFrame v) 1) = 1 ∧
     Vec3.norm (col3 (vertexFrame v) 2) = 1) ∧
    (∃ c : ℝ, 0 < c ∧ col3 (vertexFrame v) 2 = c • v.normal) ∧
    col3 (vertexFrame v) 3 = v.co := by
  have hi : Vec3.orthogonal v.normal ≠ 0 := Vec3.orthogonal_ne_zero h
  have hki : Vec3.dot v.normal (Vec3.orthogonal v.normal) = 0 :=
    Vec3.dot_orthogonal v.normal
  have hj : Vec3.cross v.normal (Vec3.orthogonal v.normal) ≠ 0 :=
    Vec3.cross_ne_zero_of_orthogonal h hi hki
  have hvf : vertexFrame v = change_of_basis_matrix v.co (Vec3.orthogonal v.normal)
      (Vec3.cross v.normal (Vec3.orthogonal v.normal)) v.normal := rfl
  obtain ⟨hc0, hc1, hc2, hc3⟩ := col3_change_of_basis v.co (Vec3.orthogonal v.normal)
    (Vec3.cross v.normal (Vec3.orthogonal v.normal)) v.normal
  rw [hvf, hc0, hc1, hc2, hc3]
  refine ⟨⟨?_, ?_, ?_⟩, ⟨?_, ?_, ?_⟩, ?_, rfl⟩
  · exact Vec3.dot_normalized_eq_zero
      (by rw [Vec3.dot_comm]; exact Vec3.dot_cross_right v.normal (Vec3.orthogonal v.normal))
  · exact Vec3.dot_normalized_eq_zero (by rw [Vec3.dot_comm]; exact hki)
  · exact Vec3.dot_normalized_eq_zero
      (Vec3.dot_cross_left v.normal (Vec3.orthogonal v.normal))
  · exact Vec3.norm_normalized hi
  · exact Vec3.norm_normalized hj
  · exact Vec3.norm_normalized h
  · exact Vec3.normalized_eq_pos_smul h

/-- Witness for C3 at a concrete vertex with normal (0,0,1). -/
theorem C3_vertex_frame_witness :
    (BVert.mk ⟨1, 2, 3⟩ ⟨0, 0, 1⟩).normal ≠ 0 ∧
    ((Vec3.dot (col3 (vertexFrame ⟨⟨1, 2, 3⟩, ⟨0, 0, 1⟩⟩) 0)
        (col3 (vertexFrame ⟨⟨1, 2, 3⟩, ⟨0, 0, 1⟩⟩) 1) = 0 ∧
      Vec3.dot (col3 (vertexFrame ⟨⟨1, 2, 3⟩, ⟨0, 0, 1⟩⟩) 0)
        (col3 (vertexFrame ⟨⟨1, 2, 3⟩, ⟨0, 0, 1⟩⟩) 2) = 0 ∧
      Vec3.dot (col3 (vertexFrame ⟨⟨1, 2, 3⟩, ⟨0, 0, 1⟩⟩) 1)
        (col3 (vertexFrame ⟨⟨1, 2, 3⟩, ⟨0, 0, 1⟩⟩) 2) = 0) ∧
     (Vec3.norm (col3 (vertexFrame ⟨⟨1, 2, 3⟩, ⟨0, 0, 1⟩⟩) 0) = 1 ∧
      Vec3.norm (col3 (vertexFrame ⟨⟨1, 2, 3⟩, ⟨0, 0, 1⟩⟩) 1) = 1 ∧
      Vec3.norm (col3 (vertexFrame ⟨⟨1, 2, 3⟩, ⟨0, 0, 1⟩⟩) 2) = 1) ∧
     (∃ c : ℝ, 0 < c ∧
        col3 (vertexFrame ⟨⟨1, 2, 3⟩, ⟨0, 0, 1⟩⟩) 2 = c • (BVert.mk ⟨1, 2, 3⟩ ⟨0, 0, 1⟩).normal) ∧
     col3 (vertexFrame ⟨⟨1, 2, 3⟩, ⟨0, 0, 1⟩⟩) 3 = (BVert.mk ⟨1, 2, 3⟩ ⟨0, 0, 1⟩).co) := by
  have hn : (BVert.mk ⟨1, 2, 3⟩ ⟨0, 0, 1⟩).normal ≠ 0 := by
    simp [Vec3.ext_iff, Vec3.zero_def]
  exact ⟨hn, C3_vertex_frame ⟨⟨1, 2, 3⟩, ⟨0, 0, 1⟩⟩ hn⟩

/-- C4: for every edge adjacent to exactly two faces with non-opposite
normals n0, n1, the produced transform's third rotation column is (a positive
multiple of, in fact equal to) the normalization of n0 + n1, its first
rotation column is parallel to the edge vector v1 - v0, and the translation
column is the edge midpoint. -/
theorem C4_edge_frame (e : BEdge) (n0 n1 : Vec3)
    (hlink : e.linkFaceNormals = [n0, n1]) (_hsum : n0 + n1 ≠ 0) :
    ∃ M, edgeFrame e = some M ∧
      (∃ c : ℝ, 0 < c ∧ col3 M 2 = c • Vec3.normalized (n0 + n1)) ∧
      (∃ c : ℝ, 0 ≤ c ∧ col3 M 0 = c • (e.v1 - e.v0)) ∧
      col3 M 3 = (1 / 2 : ℝ) • (e.v0 + e.v1) := by
  have hen : edge_normal e = some ((1 / 2 : ℝ) • (n0 + n1)) := by
    unfold edge_normal
    rw [hlink]
  have hff : edgeFrame e = some (change_of_basis_matrix ((1 / 2 : ℝ) • (e.v0 + e.v1))
      (e.v1 - e.v0) (Vec3.cross ((1 / 2 : ℝ) • (n0 + n1)) (e.v1 - e.v0))
      ((1 / 2 : ℝ) • (n0 + n1))) := by
    simp [edgeFrame, hen]
  obtain ⟨hc0, hc1, hc2, hc3⟩ := col3_change_of_basis ((1 / 2 : ℝ) • (e.v0 + e.v1))
    (e.v1 - e.v0) (Vec3.cross ((1 / 2 : ℝ) • (n0 + n1)) (e.v1 - e.v0))
    ((1 / 2 : ℝ) • (n0 + n1))
  refine ⟨_, hff, ⟨1, one_pos, ?_⟩, ?_, hc3⟩
  · rw [hc2, Vec3.normalized_pos_smul (by norm_num : (0 : ℝ) < 1 / 2), one_smul_vec]
  · obtain ⟨c, hc, hceq⟩ := Vec3.normalized_eq_smul (e.v1 - e.v0)
    exact ⟨c, hc, by rw [hc0, hceq]⟩

/-- Witness for C4 at a concrete edge joining two faces with normals (0,0,1)
and (0,1,0). -/
theorem C4_edge_frame_witness :
    (BEdge.mk ⟨0, 0, 0⟩ ⟨2, 0, 0⟩ [⟨0, 0, 1⟩, ⟨0, 1, 0⟩]).linkFaceNormals =
      [⟨0, 0, 1⟩, ⟨0, 1, 0⟩] ∧
    ((⟨0, 0, 1⟩ : Vec3) + ⟨0, 1, 0⟩) ≠ 0 ∧
    (∃ M, edgeFrame (BEdge.mk ⟨0, 0, 0⟩ ⟨2, 0, 0⟩ [⟨0, 0, 1⟩, ⟨0, 1, 0⟩]) = some M ∧
      (∃ c : ℝ, 0 < c ∧ col3 M 2 = c • Vec3.normalized ((⟨0, 0, 1⟩ : Vec3) + ⟨0, 1, 0⟩)) ∧
      (∃ c : ℝ, 0 ≤ c ∧ col3 M 0 =
        c • ((BEdge.mk ⟨0, 0, 0⟩ ⟨2, 0, 0⟩ [⟨0, 0, 1⟩, ⟨0, 1, 0⟩]).v1 -
          (BEdge.mk ⟨0, 0, 0⟩ ⟨2, 0, 0⟩ [⟨0, 0, 1⟩, ⟨0, 1, 0⟩]).v0)) ∧
      col3 M 3 = (1 / 2 : ℝ) •
        ((BEdge.mk ⟨0, 0, 0⟩ ⟨2, 0, 0⟩ [⟨0, 0, 1⟩, ⟨0, 1, 0⟩]).v0 +
          (BEdge.mk ⟨0, 0, 0⟩ ⟨2, 0, 0⟩ [⟨0, 0, 1⟩, ⟨0, 1, 0⟩]).v1)) := by
  have hsum : ((⟨0, 0, 1⟩ : Vec3) + ⟨0, 1, 0⟩) ≠ 0 := by
    simp [Vec3.add_def, Vec3.ext_iff, Vec3.zero_def]
  exact ⟨rfl, hsum, C4_edge_frame _ ⟨0, 0, 1⟩ ⟨0, 1, 0⟩ rfl hsum⟩

/-- C5: for every face with at least one edge, a nonzero normal and a first
edge of nonzero length, the face transform always exists, its third rotation
column equals the unit face normal, its first rotation column is parallel to
the first edge's direction, and the translation column is the face's
vertex-centroid (the unweighted mean of the loop vertices). -/
theorem C5_face_frame (f : BFace) (a b : Vec3) (rest : List (Vec3 × Vec3))
    (hedges : f.edges = (a, b) :: rest) (hn : f.normal ≠ 0) (hab : b - a ≠ 0) :
    ∃ M, faceFrame f = some M ∧
      col3 M 2 = Vec3.normalized f.normal ∧
      Vec3.norm (col3 M 2) = 1 ∧
      (∃ c : ℝ, 0 < c ∧ col3 M 0 = c • (b - a)) ∧
      col3 M 3 = calc_center_median f ∧
      calc_center_median f = (1 / (f.verts.length : ℝ)) • (f.verts.foldl (· + ·) 0) := by
  have hff : faceFrame f = some (change_of_basis_matrix (calc_center_median f)
      (b - a) (Vec3.cross f.normal (b - a)) f.normal) := by
    unfold faceFrame
    rw [hedges]
  obtain ⟨hc0, hc1, hc2, hc3⟩ := col3_change_of_basis (calc_center_median f)
    (b - a) (Vec3.cross f.normal (b - a)) f.normal
  refine ⟨_, hff, hc2, ?_, ?_, hc3, rfl⟩
  · rw [hc2]
    exact Vec3.norm_normalized hn
  · obtain ⟨c, hc, hceq⟩ := Vec3.normalized_eq_pos_smul hab
    exact ⟨c, hc, by rw [hc0, hceq]⟩

/-- A concrete triangular face used by witnesses. -/
noncomputable def triFace : BFace :=
  ⟨[⟨0, 0, 0⟩, ⟨1, 0, 0⟩, ⟨0, 1, 0⟩],
   [(⟨0, 0, 0⟩, ⟨1, 0, 0⟩), (⟨1, 0, 0⟩, ⟨0, 1, 0⟩), (⟨0, 1, 0⟩, ⟨0, 0, 0⟩)],
   ⟨0, 0, 1⟩⟩

/-- Witness for C5 at a concrete triangular face. -/
theorem C5_face_frame_witness :
    triFace.edges = (⟨0, 0, 0⟩, ⟨1, 0, 0⟩) ::
      [(⟨1, 0, 0⟩, ⟨0, 1, 0⟩), (⟨0, 1, 0⟩, ⟨0, 0, 0⟩)] ∧
    triFace.normal ≠ 0 ∧
    ((⟨1, 0, 0⟩ : Vec3) - ⟨0, 0, 0⟩) ≠ 0 ∧
    (∃ M, faceFrame triFace = some M ∧
      col3 M 2 = Vec3.normalized triFace.normal ∧
      Vec3.norm (col3 M 2) = 1 ∧
      (∃ c : ℝ, 0 < c ∧ col3 M 0 = c • ((⟨1, 0, 0⟩ : Vec3) - ⟨0, 0, 0⟩)) ∧
      col3 M 3 = calc_center_median triFace ∧
      calc_center_median triFace =
        (1 / (triFace.verts.length : ℝ)) • (triFace.verts.foldl (· + ·) 0)) := by
  have hn : triFace.normal ≠ 0 := by
    simp [triFace, Vec3.ext_iff, Vec3.zero_def]
  have hab : ((⟨1, 0, 0⟩ : Vec3) - ⟨0, 0, 0⟩) ≠ 0 := by
    simp [Vec3.sub_def, Vec3.ext_iff, Vec3.zero_def]
  exact ⟨rfl, hn, hab, C5_face_frame triFace ⟨0, 0, 0⟩ ⟨1, 0, 0⟩
    [(⟨1, 0, 0⟩, ⟨0, 1, 0⟩), (⟨0, 1, 0⟩, ⟨0, 0, 0⟩)] rfl hn hab⟩

/-- C6: round-trip — applying the produced 4x4 transform to the local origin
yields the element's anchor point: the vertex position, the edge midpoint, or
the face centroid respectively. -/
theorem C6_round_trip :
    (∀ v : BVert, applyPoint (vertexFrame v) 0 = v.co) ∧
    (∀ (e : BEdge) (M : Matrix (Fin 4) (Fin 4) ℝ), edgeFrame e = some M →
      applyPoint M 0 = (1 / 2 : ℝ) • (e.v0 + e.v1)) ∧
    (∀ (f : BFace) (M : Matrix (Fin 4) (Fin 4) ℝ), faceFrame f = some M →
      applyPoint M 0 = calc_center_median f) := by
  refine ⟨fun v => ?_, fun e M hM => ?_, fun f M hM => ?_⟩
  · exact applyPoint_change_of_basis_zero v.co _ _ _
  · rcases he : edge_normal e with _ | k
    · simp [edgeFrame, he] at hM
    · simp [edgeFrame, he] at hM
      subst hM
      rw [applyPoint_change_of_basis_zero, one_div]
  · rcases hfe : f.edges with _ | ⟨⟨a, b⟩, rest⟩
    · simp [faceFrame, hfe] at hM
    · simp [faceFrame, hfe] at hM
      subst hM
      exact applyPoint_change_of_basis_zero _ _ _ _

/-- Witness for C6 at a concrete vertex, edge and face. -/
theorem C6_round_trip_witness :
    applyPoint (vertexFrame ⟨⟨1, 2, 3⟩, ⟨0, 0, 1⟩⟩) 0 = ⟨1, 2, 3⟩ ∧
    (∃ M, edgeFrame ⟨⟨0, 0, 0⟩, ⟨2, 0, 0⟩, [⟨0, 0, 1⟩, ⟨0, 1, 0⟩]⟩ = some M ∧
      applyPoint M 0 = (1 / 2 : ℝ) • ((⟨0, 0, 0⟩ : Vec3) + ⟨2, 0, 0⟩)) ∧
    (∃ M, faceFrame triFace = some M ∧
      applyPoint M 0 = calc_center_median triFace) :=
  ⟨C6_round_trip.1 ⟨⟨1, 2, 3⟩, ⟨0, 0, 1⟩⟩,
   ⟨_, rfl, C6_round_trip.2.1 ⟨⟨0, 0, 0⟩, ⟨2, 0, 0⟩, [⟨0, 0, 1⟩, ⟨0, 1, 0⟩]⟩ _ rfl⟩,
   ⟨_, rfl, C6_round_trip.2.2 triFace _ rfl⟩⟩

/-- The basis construction exactly as the spec words it: the rotation matrix
with rows the three independently normalized vectors, transposed, composed
with the translation to `p`.  Compared against `change_of_basis_matrix`
below. -/
noncomputable def buildBasisSpec (p i j k : Vec3) : Matrix (Fin 4) (Fin 4) ℝ :=
  translationMatrix p *
    to_4x4 (matrixOfRows (Vec3.normalized i) (Vec3.normalized j) (Vec3.normalized k)).transpose

/-- C7: `change_of_basis_matrix` normalizes i, j, k independently (each
rotation column is exactly the normalization of the corresponding input — no
re-orthogonalization of i against k or j against i), and equals the
translation to `p` composed with the transpose of the row matrix of the three
independently normalized vectors. -/
theorem C7_build_basis (p i j k : Vec3) (_hi : i ≠ 0) (_hj : j ≠ 0) (_hk : k ≠ 0) :
    change_of_basis_matrix p i j k = buildBasisSpec p i j k ∧
    col3 (change_of_basis_matrix p i j k) 0 = Vec3.normalized i ∧
    col3 (change_of_basis_matrix p i j k) 1 = Vec3.normalized j ∧
    col3 (change_of_basis_matrix p i j k) 2 = Vec3.normalized k ∧
    col3 (change_of_basis_matrix p i j k) 3 = p := by
  obtain ⟨h0, h1, h2, h3⟩ := col3_change_of_basis p i j k
  exact ⟨rfl, h0, h1, h2, h3⟩

/-- Witness for C7 at a concrete, deliberately non-orthogonal basis triple
(showing the helper does not re-orthogonalize). -/
theorem C7_build_basis_witness :
    ((⟨1, 1, 0⟩ : Vec3) ≠ 0 ∧ (⟨0, 1, 0⟩ : Vec3) ≠ 0 ∧ (⟨0, 0, 1⟩ : Vec3) ≠ 0) ∧
    (change_of_basis_matrix ⟨5, 6, 7⟩ ⟨1, 1, 0⟩ ⟨0, 1, 0⟩ ⟨0, 0, 1⟩ =
        buildBasisSpec ⟨5, 6, 7⟩ ⟨1, 1, 0⟩ ⟨0, 1, 0⟩ ⟨0, 0, 1⟩ ∧
      col3 (change_of_basis_matrix ⟨5, 6, 7⟩ ⟨1, 1, 0⟩ ⟨0, 1, 0⟩ ⟨0, 0, 1⟩) 0 =
        Vec3.normalized ⟨1, 1, 0⟩ ∧
      col3 (change_of_basis_matrix ⟨5, 6, 7⟩ ⟨1, 1, 0⟩ ⟨0, 1, 0⟩ ⟨0, 0, 1⟩) 1 =
        Vec3.normalized ⟨0, 1, 0⟩ ∧
      col3 (change_of_basis_matrix ⟨5, 6, 7⟩ ⟨1, 1, 0⟩ ⟨0, 1, 0⟩ ⟨0, 0, 1⟩) 2 =
        Vec3.normalized ⟨0, 0, 1⟩ ∧
      col3 (change_of_basis_matrix ⟨5, 6, 7⟩ ⟨1, 1, 0⟩ ⟨0, 1, 0⟩ ⟨0, 0, 1⟩) 3 =
        ⟨5, 6, 7⟩) := by
  have h1 : (⟨1, 1, 0⟩ : Vec3) ≠ 0 := by simp [Vec3.ext_iff, Vec3.zero_def]
  have h2 : (⟨0, 1, 0⟩ : Vec3) ≠ 0 := by simp [Vec3.ext_iff, Vec3.zero_def]
  have h3 : (⟨0, 0, 1⟩ : Vec3) ≠ 0 := by simp [Vec3.ext_iff, Vec3.zero_def]
  exact ⟨⟨h1, h2, h3⟩, C7_build_basis ⟨5, 6, 7⟩ ⟨1, 1, 0⟩ ⟨0, 1, 0⟩ ⟨0, 0, 1⟩ h1 h2 h3⟩

theorem countP_ext {α : Type} (p q : α → Bool) (l : List α)
    (h : ∀ a ∈ l, p a = q a) : l.countP p = l.countP q := by
  induction l with
  | nil => rfl
  | cons a t ih =>
    rw [List.countP_cons, List.countP_cons, h a (List.mem_cons_self a t),
      ih (fun b hb => h b (List.mem_cons_of_mem a hb))]

theorem countP_eq_length_of_all {α : Type} (p : α → Bool) (l : List α)
    (h : ∀ a ∈ l, p a = true) : l.countP p = l.length := by
  induction l with
  | nil => rfl
  | cons a t ih =>
    rw [List.countP_cons, h a (List.mem_cons_self a t),
      ih (fun b hb => h b (List.mem_cons_of_mem a hb))]
    simp

theorem edgeFrame_isSome_eq (e : BEdge) :
    (edgeFrame e).isSome = decide (e.linkFaceNormals.length = 2) := by
  rcases e with ⟨v0, v1, l⟩
  rcases l with _ | ⟨a, _ | ⟨b, _ | ⟨c, t⟩⟩⟩ <;> simp [edgeFrame, edge_normal]

theorem faceFrame_isSome {f : BFace} (h : f.edges ≠ []) :
    (faceFrame f).isSome = true := by
  rcases f with ⟨fv, fe, fn⟩
  rcases fe with _ | ⟨⟨a, b⟩, rest⟩
  · simp at h
  · simp [faceFrame]

/-- The free-floating-triangle mesh of the concrete scenario: 3 vertices,
3 edges each linked to exactly 1 face, 1 face. -/
noncomputable def triangleMesh : BMesh :=
  ⟨[⟨⟨0, 0, 0⟩, ⟨0, 0, 1⟩⟩, ⟨⟨1, 0, 0⟩, ⟨0, 0, 1⟩⟩, ⟨⟨0, 1, 0⟩, ⟨0, 0, 1⟩⟩],
   [⟨⟨0, 0, 0⟩, ⟨1, 0, 0⟩, [⟨0, 0, 1⟩]⟩,
    ⟨⟨1, 0, 0⟩, ⟨0, 1, 0⟩, [⟨0, 0, 1⟩]⟩,
    ⟨⟨0, 1, 0⟩, ⟨0, 0, 0⟩, [⟨0, 0, 1⟩]⟩],
   [triFace]⟩

/-- C8: on a single free-floating triangle with selection mask = edges only,
`execute` produces 0 transforms and a skipped-edge count of exactly 3. -/
theorem C8_triangle_scenario :
    execute ⟨false, true, false⟩ triangleMesh = ([], 3) := rfl

/-- C9: determinism / purity — each emitted transform is the value of a pure
per-element function (`vertexFrame`, `edgeFrame`, `faceFrame`) of that single
mesh element, the skipped count is a pure function of the edge list, and any
two runs on the same mesh snapshot and selection mask produce identical
transform sequences and skipped counts. -/
theorem C9_purity (w : Which) (m : BMesh) :
    ((execute w m).1 =
        (if w.verts then m.verts.map vertexFrame else []) ++
        (if w.edges then m.edges.filterMap edgeFrame else []) ++
        (if w.faces then m.faces.filterMap faceFrame else []) ∧
      (execute w m).2 =
        (if w.edges then m.edges.countP (fun e => (edge_normal e).isNone) else 0)) ∧
    (∀ (w' : Which) (m' : BMesh), w'.verts = w.verts → w'.edges = w.edges →
      w'.faces = w.faces → m'.verts = m.verts → m'.edges = m.edges →
      m'.faces = m.faces → execute w' m' = execute w m) := by
  refine ⟨⟨by rw [execute_eq], by rw [execute_eq]⟩, ?_⟩
  intro w' m' h1 h2 h3 h4 h5 h6
  have hw : w' = w := by
    rcases w with ⟨av, ae, af⟩; rcases w' with ⟨bv, be, bf⟩
    simp_all
  have hm : m' = m := by
    rcases m with ⟨av, ae, af⟩; rcases m' with ⟨bv, be, bf⟩
    simp_all
  rw [hw, hm]

/-- Witness for C9 at a concrete mask and mesh (two identical snapshots). -/
theorem C9_purity_witness :
    ((execute ⟨true, true, true⟩ triangleMesh).1 =
        (if (Which.mk true true true).verts
          then triangleMesh.verts.map vertexFrame else []) ++
        (if (Which.mk true true true).edges
          then triangleMesh.edges.filterMap edgeFrame else []) ++
        (if (Which.mk true true true).faces
          then triangleMesh.faces.filterMap faceFrame else []) ∧
      (execute ⟨true, true, true⟩ triangleMesh).2 =
        (if (Which.mk true true true).edges
          then triangleMesh.edges.countP (fun e => (edge_normal e).isNone) else 0)) ∧
    execute ⟨true, true, true⟩ triangleMesh = execute ⟨true, true, true⟩ triangleMesh :=
  ⟨(C9_purity ⟨true, true, true⟩ triangleMesh).1,
   (C9_purity ⟨true, true, true⟩ triangleMesh).2 ⟨true, true, true⟩ triangleMesh
     rfl rfl rfl rfl rfl rfl⟩

/-- C10: the batch emits transforms grouped vertices-then-edges-then-faces
(each group only when that kind is selected, in the mesh's iteration order),
and the total number of emitted transforms is the number of vertices (if
selected) plus the number of edges with exactly two linked faces (if
selected) plus the number of faces (if selected).  The face-count clause
assumes every face has at least one edge, which bmesh guarantees (the source
would raise on `f.edges[0]` otherwise). -/
theorem C10_grouping (w : Which) (m : BMesh)
    (hfaces : ∀ f ∈ m.faces, f.edges ≠ []) :
    (execute w m).1 =
      (if w.verts then m.verts.map vertexFrame else []) ++
      (if w.edges then m.edges.filterMap edgeFrame else []) ++
      (if w.faces then m.faces.filterMap faceFrame else []) ∧
    (execute w m).1.length =
      (if w.verts then m.verts.length else 0) +
      (if w.edges then m.edges.countP (fun e => e.linkFaceNormals.length = 2) else 0) +
      (if w.faces then m.faces.length else 0) := by
  have h1 : (execute w m).1 =
      (if w.verts then m.verts.map vertexFrame else []) ++
      (if w.edges then m.edges.filterMap edgeFrame else []) ++
      (if w.faces then m.faces.filterMap faceFrame else []) := by
    rw [execute_eq]
  refine ⟨h1, ?_⟩
  rw [h1, List.length_append, List.length_append]
  have hv : (if w.verts then m.verts.map vertexFrame else []).length =
      (if w.verts then m.verts.length else 0) := by
    cases w.verts <;> simp
  have he : (if w.edges then m.edges.filterMap edgeFrame else []).length =
      (if w.edges then m.edges.countP (fun e => e.linkFaceNormals.length = 2) else 0) := by
    cases w.edges
    · simp
    · simp only [if_pos]
      rw [length_filterMap_eq_countP]
      exact countP_ext _ _ m.edges (fun e _ => edgeFrame_isSome_eq e)
  have hf : (if w.faces then m.faces.filterMap faceFrame else []).length =
      (if w.faces then m.faces.length else 0) := by
    cases w.faces
    · simp
    · simp only [if_pos]
      rw [length_filterMap_eq_countP]
      exact countP_eq_length_of_all _ m.faces (fun f hf => faceFrame_isSome (hfaces f hf))
  rw [hv, he, hf]

/-- Witness for C10 on the concrete triangle mesh with everything selected. -/
theorem C10_grouping_witness :
    (∀ f ∈ triangleMesh.faces, f.edges ≠ []) ∧
    ((execute ⟨true, true, true⟩ triangleMesh).1 =
        (if (Which.mk true true true).verts
          then triangleMesh.verts.map vertexFrame else []) ++
        (if (Which.mk true true true).edges
          then triangleMesh.edges.filterMap edgeFrame else []) ++
        (if (Which.mk true true true).faces
          then triangleMesh.faces.filterMap faceFrame else []) ∧
      (execute ⟨true, true, true⟩ triangleMesh).1.length =
        (if (Which.mk true true true).verts then triangleMesh.verts.length else 0) +
        (if (Which.mk true true true).edges
          then triangleMesh.edges.countP (fun e => e.linkFaceNormals.length = 2) else 0) +
        (if (Which.mk true true true).faces then triangleMesh.faces.length else 0)) := by
  have hfaces : ∀ f ∈ triangleMesh.faces, f.edges ≠ [] := by
    intro f hf
    simp [triangleMesh] at hf
    subst hf
    simp [triFace]
  exact ⟨hfaces, C10_grouping ⟨true, true, true⟩ triangleMesh hfaces⟩
